import Mathlib

/-!
Shallow embedding of `src/planner.py` (course-enrollment planner).

Modelling conventions:
  - Python strings are `List Char`; `str.upper` is `Char.toUpper` per character and
    `str.split()` is `splitWs` (split on whitespace runs, dropping empty pieces).
    The regex character class `\d` is modelled as ASCII `Char.isDigit`.
  - A SIGAA time slot such as "2M1" is always a three-character string
    (day char, period char, hour char); it is modelled as the structure `TimeSlot`,
    so `slot[0]`, `slot[1]`, `slot[2:]` become the fields `day`, `per`, `hour`.
  - Python `set` becomes `Finset`, Python `float` scores become `ℚ` (exact rationals).
  - The scheduler's mutable list `self.disciplinas` is threaded explicitly: each
    operation takes the current `List Disciplina` and returns the updated list.
    A course argument that in Python is an object aliased into the list is the
    index `i` of that course in the list.
  - `re.findall` for the fixed pattern `([2-7][MTN])(\d+)` is implemented as a
    left-to-right scan (`findMatchesGo`) driven by a fuel argument equal to the
    input length, so that the definition is structurally recursive and computable
    by the kernel.
-/

/-- One discrete teaching slot, e.g. the string "2M1": day character,
period character, hour character. -/
structure TimeSlot where
  day : Char
  per : Char
  hour : Char
deriving DecidableEq, Repr

/-- The regex character class `[2-7]` from `([2-7][MTN])(\d+)`. -/
def isDayChar (c : Char) : Bool := '2' ≤ c && c ≤ '7'

/-- The regex character class `[MTN]`. -/
def isPeriodChar (c : Char) : Bool := c = 'M' || c = 'T' || c = 'N'

/-- The regex character class `[1-6]` used by `find_by_time_code`. -/
def isHourChar (c : Char) : Bool := '1' ≤ c && c ≤ '6'

/-- Greedy `\d+`: the maximal digit run at the front, and the remainder. -/
def takeDigits (l : List Char) : List Char × List Char :=
  (l.takeWhile Char.isDigit, l.dropWhile Char.isDigit)

/-- Left-to-right scan implementing `re.findall(r"([2-7][MTN])(\d+)", part)`:
at each position try to match a day char, a period char and a nonempty greedy
digit run; on success emit the match and continue after it, otherwise advance
one character.  `fuel` bounds the recursion; `fuel ≥ length` gives the true
result, since every recursive call is on a strictly shorter list. -/
def findMatchesGo : Nat → List Char → List (Char × Char × List Char)
  | 0, _ => []
  | _, [] => []
  | fuel + 1, c :: cs =>
    match cs with
    | [] => []
    | p :: rest =>
      if isDayChar c && isPeriodChar p then
        match rest with
        | [] => findMatchesGo fuel cs
        | h :: _ =>
          if h.isDigit then
            (c, p, (takeDigits rest).1) :: findMatchesGo fuel (takeDigits rest).2
          else findMatchesGo fuel cs
      else findMatchesGo fuel cs

/-- All matches of `([2-7][MTN])(\d+)` in a whitespace-free part. -/
def findMatches (l : List Char) : List (Char × Char × List Char) :=
  findMatchesGo l.length l

/-- Helper for `splitWs`: `acc` holds the current chunk, reversed. -/
def splitWsAux : List Char → List Char → List (List Char)
  | [], acc => if acc = [] then [] else [acc.reverse]
  | c :: cs, acc =>
    if c.isWhitespace then
      if acc = [] then splitWsAux cs [] else acc.reverse :: splitWsAux cs []
    else splitWsAux cs (c :: acc)

/-- Python `str.split()`: split on whitespace runs, dropping empty chunks. -/
def splitWs (l : List Char) : List (List Char) := splitWsAux l []

/-- `Disciplina.parse_codes`: parse SIGAA time codes into a set of individual
time slots.  For each whitespace-separated part, for each regex match
`(prefix, digits)`, add one slot `prefix + d` per digit `d`. -/
def parse_codes (code_str : List Char) : Finset TimeSlot :=
  ((splitWs code_str).flatMap (fun part =>
    (findMatches part).flatMap (fun m =>
      m.2.2.map (fun d => ⟨m.1, m.2.1, d⟩)))).toFinset

/-- A course record (`class Disciplina`): CSV identity fields, the slot set
parsed from `horario`, and the mutable flags. -/
structure Disciplina where
  orgao : List Char
  periodo : List Char
  turma : List Char
  codigo : List Char
  name : List Char
  docente : List Char
  horario : List Char
  sala : List Char
  slots : Finset TimeSlot
  selected : Bool
  available : Bool
deriving DecidableEq

/-- The set `occupied` built by `update_availability`: all slots of selected
courses. -/
def occupied (ds : List Disciplina) : Finset TimeSlot :=
  ds.foldr (fun d acc => if d.selected then d.slots ∪ acc else acc) ∅

/-- The dict `occupied_by` built by `update_availability`, as a function:
the selected courses holding slot `s`, in list order (`[]` when `s` is not a
key of the dict). -/
def occupiedBy (ds : List Disciplina) (s : TimeSlot) : List Disciplina :=
  ds.filter (fun d => d.selected && decide (s ∈ d.slots))

/-- `CourseScheduler.update_availability`: recompute every course's
`available` flag as `selected or slots.isdisjoint(occupied)`.  Only the
`available` field changes. -/
def update_availability (ds : List Disciplina) : List Disciplina :=
  ds.map (fun d => { d with available := d.selected || decide (d.slots ∩ occupied ds = ∅) })

/-- `CourseScheduler.get_conflicts`, as a function from the conflicting course
to its slot set: the slots of `disc` also held by the selected course `c`
(empty unless `c` is selected, shares a slot, and has a different code). -/
def get_conflicts (ds : List Disciplina) (disc c : Disciplina) : Finset TimeSlot :=
  disc.slots.filter (fun s => c ∈ occupiedBy ds s ∧ c.codigo ≠ disc.codigo)

/-- Whether the conflict dict of `get_conflicts` is nonempty (the Boolean
returned by `print_conflicts`). -/
def has_conflicts (ds : List Disciplina) (disc : Disciplina) : Bool :=
  ds.any (fun c => decide (get_conflicts ds disc c ≠ ∅))

/-- Set the `selected` flag of the course at index `i` (the Python statement
`disciplina.selected = b` for a course object aliased into the list). -/
def setSelectedAt (ds : List Disciplina) (i : Nat) (b : Bool) : List Disciplina :=
  match ds[i]? with
  | some d => ds.set i { d with selected := b }
  | none => ds

/-- `CourseScheduler.add_course` for the course at index `i`.  Returns the new
list and the success flag.  Already selected: no side effect.  Otherwise
`update_availability` runs (recomputing `available` flags) before the conflict
check; on conflicts the add is refused, else the course is selected and
availability recomputed.  The conflict check reads only `slots` and `codigo`,
which `update_availability` never changes, so it may use the pre-update record
of the candidate. -/
def add_course (ds : List Disciplina) (i : Nat) : List Disciplina × Bool :=
  match ds[i]? with
  | none => (ds, false)
  | some disc =>
    if disc.selected then (ds, false)
    else if has_conflicts (update_availability ds) disc then (update_availability ds, false)
    else (update_availability (setSelectedAt (update_availability ds) i true), true)

/-- `CourseScheduler.remove_course` for the course at index `i`. -/
def remove_course (ds : List Disciplina) (i : Nat) : List Disciplina × Bool :=
  match ds[i]? with
  | none => (ds, false)
  | some disc =>
    if disc.selected then
      (update_availability (setSelectedAt ds i false), true)
    else (ds, false)

/-- Upper-case then split on whitespace (`query.upper().split()` /
`d.name.upper().split()`). -/
def upperWords (s : List Char) : List (List Char) :=
  splitWs (s.map Char.toUpper)

/-- Score of one (query word, name word) pair: if either is a substring of
the other, `min(len)/max(len)`, else 0. -/
def pairScore (q n : List Char) : ℚ :=
  if q <:+: n ∨ n <:+: q then
    if n.length ≥ q.length then (q.length : ℚ) / (n.length : ℚ)
    else (n.length : ℚ) / (q.length : ℚ)
  else 0

/-- The accumulated `match_score` over all (query word, name word) pairs. -/
def matchScore (qws nws : List (List Char)) : ℚ :=
  (qws.map (fun q => (nws.map (fun n => pairScore q n)).sum)).sum

/-- The `normalized_score` of a candidate name for a query:
`match_score / len(query_words)`, guarded to 0 when the query has no words. -/
def normalizedScore (query name : List Char) : ℚ :=
  let qws := upperWords query
  if qws = [] then 0
  else matchScore qws (upperWords name) / (qws.length : ℚ)

/-- The list `results` of `fuzzy_search` before sorting: one `(score, course)`
pair per course, in list order. -/
def scoredCourses (ds : List Disciplina) (query : List Char) : List (ℚ × Disciplina) :=
  ds.map (fun d => (normalizedScore query d.name, d))

/-- Sort key for `results.sort(reverse=True, key=lambda x: x[0])` on
index-annotated pairs: Python's sort is stable, and a stable descending sort
by score is exactly the sort by the lexicographic key
(score descending, original index ascending). -/
def fuzzyLe (a b : Nat × ℚ × Disciplina) : Bool :=
  decide (b.2.1 < a.2.1 ∨ (a.2.1 = b.2.1 ∧ a.1 ≤ b.1))

/-- The sorted `results` list of `fuzzy_search`, each pair annotated with its
original position. -/
def fuzzyRanked (ds : List Disciplina) (query : List Char) : List (Nat × ℚ × Disciplina) :=
  (scoredCourses ds query).enum.mergeSort fuzzyLe

/-- `CourseScheduler.fuzzy_search`: sort by descending score (stable), keep
the first 10, then keep only scores above the cutoff 0.3, and return the
courses. -/
def fuzzy_search (ds : List Disciplina) (query : List Char) : List Disciplina :=
  (((fuzzyRanked ds query).take 10).filter (fun p => decide ((3 : ℚ)/10 < p.2.1))).map
    (fun p => p.2.2)

/-- `re.match(r"([2-7])([MTN])([1-6]+)", time_code)`: a prefix match giving
the day char, period char and the greedy nonempty `[1-6]` run. -/
def matchTimeCode (tc : List Char) : Option (Char × Char × List Char) :=
  match tc with
  | d :: p :: rest =>
    if isDayChar d && isPeriodChar p then
      let hs := rest.takeWhile isHourChar
      if hs = [] then none else some (d, p, hs)
    else none
  | _ => none

/-- `CourseScheduler.find_by_time_code`.  The second component is the error
flag: `true` models the invalid-format error message returned with an empty
list when the pattern does not match.  On a match, keep the courses that have
at least one slot on the pattern's day and whose slots on that day all lie
within the pattern's slot set. -/
def find_by_time_code (ds : List Disciplina) (tc : List Char) : List Disciplina × Bool :=
  match matchTimeCode tc with
  | none => ([], true)
  | some (day, per, hs) =>
    let timeSlots : Finset TimeSlot := (hs.map (fun h => ⟨day, per, h⟩)).toFinset
    (ds.filter (fun d =>
      decide (d.slots.filter (fun s => s.day = day) ≠ ∅ ∧
        d.slots.filter (fun s => s.day = day) ⊆ timeSlots)), false)

/-- Sample course: code C1, one slot 2M2, selected. -/
def sampleA : Disciplina :=
  ⟨[], [], [], ['C', '1'], ['A'], [], [], [], {⟨'2', 'M', '2'⟩}, true, true⟩

/-- Sample course: code C2, slots 2M2 and 2M3, selected. -/
def sampleB : Disciplina :=
  ⟨[], [], [], ['C', '2'], ['B'], [], [], [], {⟨'2', 'M', '2'⟩, ⟨'2', 'M', '3'⟩}, true, true⟩

/-- Sample course: code C3, one slot 2M1, not selected. -/
def sampleC : Disciplina :=
  ⟨[], [], [], ['C', '3'], ['C'], [], [], [], {⟨'2', 'M', '1'⟩}, false, true⟩

/-- The record `sampleC` after a successful `add_course`. -/
def sampleC1 : Disciplina :=
  ⟨[], [], [], ['C', '3'], ['C'], [], [], [], {⟨'2', 'M', '1'⟩}, true, true⟩

/-- Sample course: code C4, slots 2M1 and 2M3, not selected. -/
def sampleD : Disciplina :=
  ⟨[], [], [], ['C', '4'], ['D'], [], [], [], {⟨'2', 'M', '1'⟩, ⟨'2', 'M', '3'⟩}, false, true⟩

/-- Whether the first characters of the string are a day char, a period char
and a digit: the start of a `[2-7][MTN]\d+` match. -/
def startsToken : List Char → Bool
  | d :: p :: h :: _ => isDayChar d && isPeriodChar p && h.isDigit
  | _ => false

/-- Whether some position of the string starts a `[2-7][MTN]\d+` match, i.e.
whether the string contains a token in the sense of the spec (with arbitrary
decimal hour digits). -/
def hasTokenB : List Char → Bool
  | [] => false
  | c :: cs => startsToken (c :: cs) || hasTokenB cs

/-! ### Basic lemmas about occupancy and availability -/

theorem mem_occupied {ds : List Disciplina} {s : TimeSlot} :
    s ∈ occupied ds ↔ ∃ d ∈ ds, d.selected = true ∧ s ∈ d.slots := by
  induction ds with
  | nil => simp [occupied]
  | cons d ds ih =>
    simp only [occupied, List.foldr_cons] at ih ⊢
    by_cases hsel : d.selected = true
    · rw [if_pos hsel, Finset.mem_union, ih]
      constructor
      · rintro (h | ⟨d', hd', h1, h2⟩)
        · exact ⟨d, List.mem_cons_self d ds, hsel, h⟩
        · exact ⟨d', List.mem_cons_of_mem _ hd', h1, h2⟩
      · rintro ⟨d', hd', h1, h2⟩
        rcases List.mem_cons.mp hd' with rfl | hd'
        · exact Or.inl h2
        · exact Or.inr ⟨d', hd', h1, h2⟩
    · rw [if_neg hsel, ih]
      constructor
      · rintro ⟨d', hd', h1, h2⟩
        exact ⟨d', List.mem_cons_of_mem _ hd', h1, h2⟩
      · rintro ⟨d', hd', h1, h2⟩
        rcases List.mem_cons.mp hd' with rfl | hd'
        · exact absurd h1 hsel
        · exact ⟨d', hd', h1, h2⟩

theorem mem_occupiedBy {ds : List Disciplina} {s : TimeSlot} {c : Disciplina} :
    c ∈ occupiedBy ds s ↔ c ∈ ds ∧ c.selected = true ∧ s ∈ c.slots := by
  simp [occupiedBy, List.mem_filter]

theorem mem_update_availability {ds : List Disciplina} {d' : Disciplina} :
    d' ∈ update_availability ds ↔
      ∃ d ∈ ds,
        d' = { d with available := d.selected || decide (d.slots ∩ occupied ds = ∅) } := by
  simp only [update_availability, List.mem_map]
  exact ⟨fun ⟨d, h1, h2⟩ => ⟨d, h1, h2.symm⟩, fun ⟨d, h1, h2⟩ => ⟨d, h1, h2.symm⟩⟩

theorem occupied_update_availability (ds : List Disciplina) :
    occupied (update_availability ds) = occupied ds := by
  ext s
  rw [mem_occupied, mem_occupied]
  constructor
  · rintro ⟨d', hd', h1, h2⟩
    rw [mem_update_availability] at hd'
    obtain ⟨d, hd, rfl⟩ := hd'
    exact ⟨d, hd, h1, h2⟩
  · rintro ⟨d, hd, h1, h2⟩
    refine ⟨{ d with available := d.selected || decide (d.slots ∩ occupied ds = ∅) },
      mem_update_availability.mpr ⟨d, hd, rfl⟩, h1, h2⟩

theorem length_update_availability (ds : List Disciplina) :
    (update_availability ds).length = ds.length := by
  simp [update_availability]

theorem getElem?_update_availability (ds : List Disciplina) (i : Nat) :
    (update_availability ds)[i]? =
      ds[i]?.map
        (fun d => { d with available := d.selected || decide (d.slots ∩ occupied ds = ∅) }) := by
  simp [update_availability, List.getElem?_map]

/-- Every course in the output of `update_availability` satisfies the
availability invariant with respect to the output's own occupancy. -/
theorem availability_invariant_after_update (ds : List Disciplina) :
    ∀ d ∈ update_availability ds,
      d.available = (d.selected || decide (d.slots ∩ occupied (update_availability ds) = ∅)) := by
  intro d hd
  rw [mem_update_availability] at hd
  obtain ⟨d₀, _, rfl⟩ := hd
  rw [occupied_update_availability]

/-! ### Claim theorems: C8, C9, C2 -/

/-- C8: `add_course` on a course whose `selected` flag is already true returns
`false` and returns the course list unchanged: the state of every course (all
identity fields, slots, `selected` and `available` flags) is untouched. -/
theorem addCourse_already_selected_noop (ds : List Disciplina) (i : Nat)
    (disc : Disciplina) (hget : ds[i]? = some disc) (hsel : disc.selected = true) :
    add_course ds i = (ds, false) := by
  simp [add_course, hget, hsel]

theorem addCourse_already_selected_noop_witness :
    ∃ d : Disciplina, [d][0]? = some d ∧ d.selected = true ∧
      add_course [d] 0 = ([d], false) := by
  refine ⟨⟨[], [], [], [], [], [], [], [], ∅, true, true⟩, rfl, rfl, ?_⟩
  exact addCourse_already_selected_noop _ 0 _ rfl rfl

/-- C9: `update_availability` is a frame over the `available` field: the list
keeps its length and order, and every course keeps its identity fields, slot
set and `selected` flag; only `available` may change. -/
theorem updateAvailability_frame (ds : List Disciplina) :
    (update_availability ds).length = ds.length ∧
    ∀ i, i < ds.length →
      ∃ d d', ds[i]? = some d ∧ (update_availability ds)[i]? = some d' ∧
        d'.orgao = d.orgao ∧ d'.periodo = d.periodo ∧ d'.turma = d.turma ∧
        d'.codigo = d.codigo ∧ d'.name = d.name ∧ d'.docente = d.docente ∧
        d'.horario = d.horario ∧ d'.sala = d.sala ∧ d'.slots = d.slots ∧
        d'.selected = d.selected := by
  refine ⟨length_update_availability ds, fun i hi => ?_⟩
  obtain ⟨d, hd⟩ : ∃ d, ds[i]? = some d := ⟨ds[i], List.getElem?_eq_getElem hi⟩
  refine ⟨d, { d with available := d.selected || decide (d.slots ∩ occupied ds = ∅) },
    hd, ?_, rfl, rfl, rfl, rfl, rfl, rfl, rfl, rfl, rfl, rfl⟩
  rw [getElem?_update_availability, hd, Option.map_some']

theorem updateAvailability_frame_witness :
    ∃ d' : Disciplina,
      (update_availability [⟨[], [], [], [], [], [], [], [], ∅, false, true⟩])[0]? = some d' ∧
        d'.slots = (∅ : Finset TimeSlot) ∧ d'.selected = false := by
  obtain ⟨d, d', h1, h2, -, -, -, -, -, -, -, -, h3, h4⟩ :=
    (updateAvailability_frame [⟨[], [], [], [], [], [], [], [], ∅, false, true⟩]).2 0
      (by decide)
  rw [List.getElem?_cons_zero, Option.some.injEq] at h1
  refine ⟨d', h2, ?_, ?_⟩
  · rw [h3, ← h1]
  · rw [h4, ← h1]

/-- C2: slot-level conflict symmetry.  If, against a state `ds` (one in which
`B` is selected, as any state reporting `B` must be), `get_conflicts` for
candidate `A` reports course `B` with slot `S`, then against any state `ds'`
in which `A` is selected and present, `get_conflicts` for candidate `B`
reports `A` with the same slot `S`. -/
theorem getConflicts_slot_symm (ds ds' : List Disciplina) (A B : Disciplina)
    (S : TimeSlot) (hA : A ∈ ds') (hAsel : A.selected = true)
    (h : S ∈ get_conflicts ds A B) : S ∈ get_conflicts ds' B A := by
  rw [get_conflicts, Finset.mem_filter] at h
  obtain ⟨hSA, hBocc, hcode⟩ := h
  rw [mem_occupiedBy] at hBocc
  obtain ⟨-, -, hSB⟩ := hBocc
  rw [get_conflicts, Finset.mem_filter]
  exact ⟨hSB, mem_occupiedBy.mpr ⟨hA, hAsel, hSA⟩, fun hc => hcode hc.symm⟩

/-! ### Sample data for the concrete witnesses -/


theorem getConflicts_slot_symm_witness :
    sampleA ∈ [sampleA, sampleB] ∧ sampleA.selected = true ∧
    (⟨'2', 'M', '2'⟩ : TimeSlot) ∈ get_conflicts [sampleA, sampleB] sampleA sampleB ∧
    (⟨'2', 'M', '2'⟩ : TimeSlot) ∈ get_conflicts [sampleA, sampleB] sampleB sampleA := by
  have hmem : sampleA ∈ [sampleA, sampleB] := by decide
  have hsel : sampleA.selected = true := by decide
  have h : (⟨'2', 'M', '2'⟩ : TimeSlot) ∈ get_conflicts [sampleA, sampleB] sampleA sampleB := by
    decide
  exact ⟨hmem, hsel, h,
    getConflicts_slot_symm [sampleA, sampleB] [sampleA, sampleB] sampleA sampleB _ hmem hsel h⟩

/-! ### Claim theorems: C1 and C7 -/

/-- C1: after `update_availability` runs -- as it does at the end of `load_data`
and of every successful `add_course` or `remove_course` -- every course's
`available` flag equals `selected OR (slots disjoint from the occupied slots
of the selected courses)`. -/
theorem availability_invariant (ds : List Disciplina) :
    (∀ d ∈ update_availability ds,
        d.available = (d.selected || decide (d.slots ∩ occupied (update_availability ds) = ∅)))
    ∧ (∀ i ds', add_course ds i = (ds', true) →
        ∀ d ∈ ds', d.available = (d.selected || decide (d.slots ∩ occupied ds' = ∅)))
    ∧ (∀ i ds', remove_course ds i = (ds', true) →
        ∀ d ∈ ds', d.available = (d.selected || decide (d.slots ∩ occupied ds' = ∅))) := by
  refine ⟨availability_invariant_after_update ds, fun i ds' h => ?_, fun i ds' h => ?_⟩
  · unfold add_course at h
    split at h
    · exact absurd (congrArg Prod.snd h) (by simp)
    · split at h
      · exact absurd (congrArg Prod.snd h) (by simp)
      · split at h
        · exact absurd (congrArg Prod.snd h) (by simp)
        · have h1 : update_availability (setSelectedAt (update_availability ds) i true) = ds' :=
            congrArg Prod.fst h
          rw [← h1]
          exact availability_invariant_after_update _
  · unfold remove_course at h
    split at h
    · exact absurd (congrArg Prod.snd h) (by simp)
    · split at h
      · have h1 : update_availability (setSelectedAt ds i false) = ds' :=
          congrArg Prod.fst h
        rw [← h1]
        exact availability_invariant_after_update _
      · exact absurd (congrArg Prod.snd h) (by simp)

theorem availability_invariant_witness :
    add_course [sampleC] 0 = ([sampleC1], true) ∧ sampleC1 ∈ [sampleC1] ∧
    sampleC1.available =
      (sampleC1.selected || decide (sampleC1.slots ∩ occupied [sampleC1] = ∅)) := by
  have hrun : add_course [sampleC] 0 = ([sampleC1], true) := by decide
  exact ⟨hrun, List.mem_cons_self _ _,
    (availability_invariant [sampleC]).2.1 0 [sampleC1] hrun sampleC1 (List.mem_cons_self _ _)⟩

/-- C7: when `add_course` succeeds, the candidate course (at its index in the
new list) has `available = true`, and the recomputed occupancy maps every one
of its slots to a list containing it. -/
theorem addCourse_success_postcondition (ds : List Disciplina) (i : Nat)
    (ds' : List Disciplina) (h : add_course ds i = (ds', true)) :
    ∃ c, ds'[i]? = some c ∧ c.available = true ∧ ∀ s ∈ c.slots, c ∈ occupiedBy ds' s := by
  unfold add_course at h
  split at h
  · exact absurd (congrArg Prod.snd h) (by simp)
  case _ disc hget =>
    split at h
    · exact absurd (congrArg Prod.snd h) (by simp)
    · split at h
      · exact absurd (congrArg Prod.snd h) (by simp)
      · have hds' : ds' = update_availability (setSelectedAt (update_availability ds) i true) :=
          (congrArg Prod.fst h).symm
        have hi : i < ds.length := (List.getElem?_eq_some.mp hget).1
        have hi1 : i < (update_availability ds).length := by
          rw [length_update_availability]; exact hi
        have hget1 : (update_availability ds)[i]? =
            some { disc with available := disc.selected || decide (disc.slots ∩ occupied ds = ∅) } := by
          rw [getElem?_update_availability, hget, Option.map_some']
        have hset : setSelectedAt (update_availability ds) i true =
            (update_availability ds).set i
              { disc with selected := true, available := disc.selected || decide (disc.slots ∩ occupied ds = ∅) } := by
          rw [setSelectedAt, hget1]
        have hget2 : (setSelectedAt (update_availability ds) i true)[i]? =
            some { disc with selected := true, available := disc.selected || decide (disc.slots ∩ occupied ds = ∅) } := by
          rw [hset, List.getElem?_set, if_pos rfl, if_pos hi1]
        have hget3 : ds'[i]? = some { disc with selected := true, available := true } := by
          rw [hds', getElem?_update_availability, hget2, Option.map_some']
          rfl
        refine ⟨{ disc with selected := true, available := true }, hget3, rfl, ?_⟩
        intro s hs
        rw [mem_occupiedBy]
        refine ⟨?_, rfl, hs⟩
        obtain ⟨hlt, hEq⟩ := List.getElem?_eq_some.mp hget3
        exact hEq ▸ List.getElem_mem hlt

theorem addCourse_success_postcondition_witness :
    add_course [sampleC] 0 = ([sampleC1], true) ∧
    ∃ c, [sampleC1][0]? = some c ∧ c.available = true ∧
      ∀ s ∈ c.slots, c ∈ occupiedBy [sampleC1] s := by
  have hrun : add_course [sampleC] 0 = ([sampleC1], true) := by decide
  exact ⟨hrun, addCourse_success_postcondition [sampleC] 0 [sampleC1] hrun⟩


/-! ### Claim theorem: C3 -/

/-- C3: `find_by_time_code` membership characterization.  When the pattern
parses, a course is returned exactly when it has at least one slot on the
pattern's day and all its slots on that day lie within the pattern's slot
set.  When the pattern does not parse, the result is the empty list with the
invalid-format error.  Scenario: for pattern "2M12" a course with slots
{2M1} is included and a course with slots {2M1, 2M3} is excluded. -/
theorem findByTimeCode_spec :
    (∀ ds tc day per hs, matchTimeCode tc = some (day, per, hs) →
      ∀ d, d ∈ (find_by_time_code ds tc).1 ↔
        d ∈ ds ∧ d.slots.filter (fun s => s.day = day) ≠ ∅ ∧
          d.slots.filter (fun s => s.day = day) ⊆ (hs.map (fun h => ⟨day, per, h⟩)).toFinset)
    ∧ (∀ ds tc, matchTimeCode tc = none → find_by_time_code ds tc = ([], true))
    ∧ sampleC ∈ (find_by_time_code [sampleC, sampleD] ['2', 'M', '1', '2']).1
    ∧ sampleD ∉ (find_by_time_code [sampleC, sampleD] ['2', 'M', '1', '2']).1 := by
  refine ⟨?_, ?_, by decide, by decide⟩
  · intro ds tc day per hs hm d
    simp only [find_by_time_code, hm, List.mem_filter, decide_eq_true_eq]
  · intro ds tc hm
    simp only [find_by_time_code, hm]

theorem findByTimeCode_spec_witness :
    (sampleC ∈ (find_by_time_code [sampleC] ['2', 'M', '1', '2']).1 ↔
      sampleC ∈ [sampleC] ∧ sampleC.slots.filter (fun s => s.day = '2') ≠ ∅ ∧
        sampleC.slots.filter (fun s => s.day = '2') ⊆
          ((['1', '2'].map (fun h => (⟨'2', 'M', h⟩ : TimeSlot))).toFinset))
    ∧ find_by_time_code [sampleC] ['x'] = ([], true) :=
  ⟨findByTimeCode_spec.1 [sampleC] ['2', 'M', '1', '2'] '2' 'M' ['1', '2'] (by decide) sampleC,
    findByTimeCode_spec.2.1 [sampleC] ['x'] (by decide)⟩

/-! ### Claim theorem: C10 -/

/-- C10: on a query with no words (empty or whitespace-only), every
candidate's normalized score is the guarded value 0 and `fuzzy_search`
returns the empty list. -/
theorem fuzzySearch_empty_query (ds : List Disciplina) (q : List Char)
    (hq : upperWords q = []) :
    (∀ d ∈ ds, normalizedScore q d.name = 0) ∧ fuzzy_search ds q = [] := by
  have hscore : ∀ name, normalizedScore q name = 0 := by
    intro name
    rw [normalizedScore]
    simp [hq]
  refine ⟨fun d _ => hscore d.name, ?_⟩
  rw [fuzzy_search]
  have hall : ∀ p ∈ (fuzzyRanked ds q).take 10, p.2.1 = 0 := by
    intro p hp
    have hp1 : p ∈ fuzzyRanked ds q := List.mem_of_mem_take hp
    have hp2 : p ∈ (scoredCourses ds q).enum :=
      ((List.mergeSort_perm _ _).mem_iff).mp hp1
    have hp3 := List.mem_enum hp2
    obtain ⟨hlt, hx⟩ := hp3
    have hlen : p.1 < ds.length := by
      simpa [scoredCourses] using hlt
    have : (scoredCourses ds q)[p.1] = (normalizedScore q ds[p.1].name, ds[p.1]) := by
      simp [scoredCourses]
    rw [this] at hx
    rw [congrArg Prod.fst hx]
    exact hscore _
  have hfilter :
      ((fuzzyRanked ds q).take 10).filter (fun p => decide ((3 : ℚ)/10 < p.2.1)) = [] := by
    rw [List.filter_eq_nil_iff]
    intro p hp
    rw [hall p hp]
    simp only [decide_eq_true_eq]
    norm_num
  rw [hfilter]
  rfl

theorem fuzzySearch_empty_query_witness :
    upperWords [] = [] ∧ normalizedScore [] sampleC.name = 0 ∧
      fuzzy_search [sampleC] [] = [] := by
  have hq : upperWords ([] : List Char) = [] := rfl
  obtain ⟨h1, h2⟩ := fuzzySearch_empty_query [sampleC] [] hq
  exact ⟨hq, h1 sampleC (List.mem_cons_self _ _), h2⟩

/-! ### Parsing lemmas and claim theorems C5, C6 -/

theorem ws_char_cases {c : Char} (hw : c.isWhitespace = true) :
    c = ' ' ∨ c = '\t' ∨ c = '\r' ∨ c = '\n' := by
  simp only [Char.isWhitespace, Bool.or_eq_true, decide_eq_true_eq] at hw
  tauto

theorem not_ws_of_day {c : Char} (h : isDayChar c = true) : c.isWhitespace = false := by
  rcases Bool.eq_false_or_eq_true c.isWhitespace with hw | hw
  · rcases ws_char_cases hw with rfl | rfl | rfl | rfl <;> exact absurd h (by decide)
  · exact hw

theorem not_ws_of_period {c : Char} (h : isPeriodChar c = true) : c.isWhitespace = false := by
  rcases Bool.eq_false_or_eq_true c.isWhitespace with hw | hw
  · rcases ws_char_cases hw with rfl | rfl | rfl | rfl <;> exact absurd h (by decide)
  · exact hw

theorem not_ws_of_digit {c : Char} (h : c.isDigit = true) : c.isWhitespace = false := by
  rcases Bool.eq_false_or_eq_true c.isWhitespace with hw | hw
  · rcases ws_char_cases hw with rfl | rfl | rfl | rfl <;> exact absurd h (by decide)
  · exact hw

theorem splitWsAux_no_ws (l : List Char) : ∀ acc, (∀ c ∈ l, c.isWhitespace = false) →
    acc ≠ [] ∨ l ≠ [] → splitWsAux l acc = [acc.reverse ++ l] := by
  induction l with
  | nil =>
    intro acc _ hne
    rcases hne with h | h
    · rw [splitWsAux, if_neg h, List.append_nil]
    · exact absurd rfl h
  | cons c cs ih =>
    intro acc hws _
    have hc : c.isWhitespace = false := hws c (List.mem_cons_self c cs)
    rw [splitWsAux, if_neg (by simp [hc]),
      ih (c :: acc) (fun x hx => hws x (List.mem_cons_of_mem c hx))
        (Or.inl (List.cons_ne_nil c acc))]
    simp

theorem splitWs_single {l : List Char} (hws : ∀ c ∈ l, c.isWhitespace = false)
    (hne : l ≠ []) : splitWs l = [l] := by
  rw [splitWs, splitWsAux_no_ws l [] hws (Or.inr hne)]
  rfl

theorem takeDigits_all {l : List Char} (h : ∀ c ∈ l, c.isDigit = true) :
    takeDigits l = (l, []) := by
  rw [takeDigits, List.takeWhile_eq_self_iff.mpr h, List.dropWhile_eq_nil_iff.mpr h]

theorem findMatchesGo_nil (fuel : Nat) : findMatchesGo fuel [] = [] := by
  cases fuel <;> rfl

theorem findMatches_token {d p : Char} {hh : List Char} (hd : isDayChar d = true)
    (hp : isPeriodChar p = true) (hne : hh ≠ []) (hdig : ∀ c ∈ hh, c.isDigit = true) :
    findMatches (d :: p :: hh) = [(d, p, hh)] := by
  obtain ⟨h, t, rfl⟩ : ∃ h t, hh = h :: t := by
    cases hh with
    | nil => exact absurd rfl hne
    | cons h t => exact ⟨h, t, rfl⟩
  have hh1 : h.isDigit = true := hdig h (List.mem_cons_self _ _)
  have htd : takeDigits (h :: t) = (h :: t, []) := takeDigits_all hdig
  rw [findMatches]
  show findMatchesGo ((t.length + 2) + 1) (d :: p :: h :: t) = [(d, p, h :: t)]
  simp only [findMatchesGo, hd, hp, Bool.and_self, if_true, hh1, htd, findMatchesGo_nil]

theorem parse_token {d p : Char} {hh : List Char} (hd : isDayChar d = true)
    (hp : isPeriodChar p = true) (hne : hh ≠ []) (hdig : ∀ c ∈ hh, c.isDigit = true) :
    parse_codes (d :: p :: hh) = (hh.map (fun h => ⟨d, p, h⟩)).toFinset := by
  have hws : ∀ c ∈ d :: p :: hh, c.isWhitespace = false := by
    intro c hc
    rcases List.mem_cons.mp hc with rfl | hc
    · exact not_ws_of_day hd
    · rcases List.mem_cons.mp hc with rfl | hc
      · exact not_ws_of_period hp
      · exact not_ws_of_digit (hdig c hc)
  rw [parse_codes, splitWs_single hws (List.cons_ne_nil _ _)]
  simp [findMatches_token hd hp hne hdig]

/-- C5: for a well-formed token (day char in 2-7, period in {M,T,N}, one or
more digit hour characters), `parse_codes` produces exactly the slots of the
token's digits -- one slot per (distinct) digit, each with the token's day and
period, and when the digits are distinct the number of slots equals the number
of digits. -/
theorem parseCodes_token_spec (d p : Char) (hh : List Char) (h1 : isDayChar d = true)
    (h2 : isPeriodChar p = true) (h3 : hh ≠ []) (h4 : ∀ c ∈ hh, c.isDigit = true) :
    parse_codes (d :: p :: hh) = (hh.map (fun h => ⟨d, p, h⟩)).toFinset
    ∧ (∀ t ∈ parse_codes (d :: p :: hh), t.day = d ∧ t.per = p)
    ∧ (hh.Nodup → (parse_codes (d :: p :: hh)).card = hh.length) := by
  have hmain := parse_token h1 h2 h3 h4
  refine ⟨hmain, ?_, ?_⟩
  · intro t ht
    rw [hmain, List.mem_toFinset, List.mem_map] at ht
    obtain ⟨h, -, rfl⟩ := ht
    exact ⟨rfl, rfl⟩
  · intro hnd
    have hinj : Function.Injective (fun h => (⟨d, p, h⟩ : TimeSlot)) := by
      intro a b hab
      injection hab
    rw [hmain, List.toFinset_card_of_nodup (hnd.map hinj), List.length_map]

theorem parseCodes_token_spec_witness :
    parse_codes ['2', 'M', '1', '2'] =
      ((['1', '2'].map (fun h => (⟨'2', 'M', h⟩ : TimeSlot))).toFinset)
    ∧ ((⟨'2', 'M', '1'⟩ : TimeSlot).day = '2' ∧ (⟨'2', 'M', '1'⟩ : TimeSlot).per = 'M')
    ∧ (parse_codes ['2', 'M', '1', '2']).card = 2 := by
  obtain ⟨ha, hb, hc⟩ := parseCodes_token_spec '2' 'M' ['1', '2'] (by decide) (by decide)
    (by decide) (by decide)
  exact ⟨ha, hb ⟨'2', 'M', '1'⟩ (by decide), hc (by decide)⟩


theorem hasTokenB_cons {cs : List Char} (c : Char) (h : hasTokenB cs = true) :
    hasTokenB (c :: cs) = true := by
  rw [hasTokenB, h, Bool.or_true]

theorem startsToken_append {l r : List Char} (h : startsToken l = true) :
    startsToken (l ++ r) = true := by
  match l with
  | d :: p :: c :: t => exact h
  | [] => simp [startsToken] at h
  | [d] => simp [startsToken] at h
  | [d, p] => simp [startsToken] at h

theorem hasTokenB_append_left {r : List Char} (l : List Char) (h : hasTokenB r = true) :
    hasTokenB (l ++ r) = true := by
  induction l with
  | nil => exact h
  | cons c cs ih => exact hasTokenB_cons c ih

theorem hasTokenB_append_right {l : List Char} (r : List Char) (h : hasTokenB l = true) :
    hasTokenB (l ++ r) = true := by
  induction l with
  | nil => exact absurd h (by decide)
  | cons c cs ih =>
    rw [hasTokenB, Bool.or_eq_true] at h
    rcases h with h | h
    · rw [List.cons_append, hasTokenB, Bool.or_eq_true]
      left
      have h2 := startsToken_append (r := r) h
      rwa [List.cons_append] at h2
    · exact hasTokenB_cons c (ih h)

theorem hasTokenB_of_mem_findMatchesGo :
    ∀ (fuel : Nat) (l : List Char) (m : Char × Char × List Char),
      m ∈ findMatchesGo fuel l → hasTokenB l = true := by
  intro fuel
  induction fuel with
  | zero => intro l m hm; simp [findMatchesGo] at hm
  | succ fuel ih =>
    intro l m hm
    cases l with
    | nil => simp [findMatchesGo] at hm
    | cons c cs =>
      simp only [findMatchesGo] at hm
      split at hm
      · exact absurd hm (by simp)
      case h_2 p rest =>
        split at hm
        case isTrue hdd =>
          split at hm
          · exact hasTokenB_cons c (ih _ m hm)
          case h_2 h t =>
            split at hm
            case isTrue hdig =>
              rcases List.mem_cons.mp hm with rfl | hm
              · rw [hasTokenB, Bool.or_eq_true]
                left
                rw [startsToken]
                rw [Bool.and_eq_true] at hdd
                rw [hdd.1, hdd.2, hdig]
                rfl
              · have h1 : hasTokenB (takeDigits (h :: t)).2 = true := ih _ m hm
                have h2 : hasTokenB (h :: t) = true := by
                  have := List.takeWhile_append_dropWhile (p := Char.isDigit) (l := h :: t)
                  calc hasTokenB (h :: t)
                      = hasTokenB (List.takeWhile Char.isDigit (h :: t) ++
                          List.dropWhile Char.isDigit (h :: t)) := by rw [this]
                    _ = true := hasTokenB_append_left _ h1
                exact hasTokenB_cons c (hasTokenB_cons p h2)
            case isFalse => exact hasTokenB_cons c (ih _ m hm)
        case isFalse => exact hasTokenB_cons c (ih _ m hm)

theorem shape_of_mem_findMatchesGo :
    ∀ (fuel : Nat) (l : List Char) (m : Char × Char × List Char),
      m ∈ findMatchesGo fuel l →
        isDayChar m.1 = true ∧ isPeriodChar m.2.1 = true ∧ ∀ c ∈ m.2.2, c.isDigit = true := by
  intro fuel
  induction fuel with
  | zero => intro l m hm; simp [findMatchesGo] at hm
  | succ fuel ih =>
    intro l m hm
    cases l with
    | nil => simp [findMatchesGo] at hm
    | cons c cs =>
      simp only [findMatchesGo] at hm
      split at hm
      · exact absurd hm (by simp)
      case h_2 p rest =>
        split at hm
        case isTrue hdd =>
          split at hm
          · exact ih _ m hm
          case h_2 h t =>
            split at hm
            case isTrue hdig =>
              rcases List.mem_cons.mp hm with rfl | hm
              · rw [Bool.and_eq_true] at hdd
                exact ⟨hdd.1, hdd.2, fun x hx => List.mem_takeWhile_imp hx⟩
              · exact ih _ m hm
            case isFalse => exact ih _ m hm
        case isFalse => exact ih _ m hm

theorem exists_decomp_of_mem_splitWsAux :
    ∀ (l acc part : List Char), part ∈ splitWsAux l acc →
      ∃ a b, acc.reverse ++ l = a ++ part ++ b := by
  intro l
  induction l with
  | nil =>
    intro acc part hp
    rw [splitWsAux] at hp
    split at hp
    · exact absurd hp (by simp)
    · rcases List.mem_cons.mp hp with rfl | hp
      · exact ⟨[], [], by simp⟩
      · exact absurd hp (by simp)
  | cons c cs ih =>
    intro acc part hp
    rw [splitWsAux] at hp
    split at hp
    case isTrue =>
      split at hp
      case isTrue hacc =>
        obtain ⟨a, b, hab⟩ := ih [] part hp
        exact ⟨c :: a, b, by simp at hab ⊢; rw [hab]; simp [hacc]⟩
      case isFalse =>
        rcases List.mem_cons.mp hp with rfl | hp
        · exact ⟨[], c :: cs, by simp⟩
        · obtain ⟨a, b, hab⟩ := ih [] part hp
          simp only [List.reverse_nil, List.nil_append] at hab
          exact ⟨acc.reverse ++ c :: a, b, by rw [hab]; simp⟩
    case isFalse =>
      obtain ⟨a, b, hab⟩ := ih (c :: acc) part hp
      rw [List.reverse_cons, List.append_assoc] at hab
      exact ⟨a, b, by simpa using hab⟩

theorem hasTokenB_of_mem_parse {s : List Char} {t : TimeSlot}
    (ht : t ∈ parse_codes s) : hasTokenB s = true := by
  rw [parse_codes, List.mem_toFinset, List.mem_flatMap] at ht
  obtain ⟨part, hpart, ht⟩ := ht
  rw [List.mem_flatMap] at ht
  obtain ⟨m, hm, -⟩ := ht
  have h1 : hasTokenB part = true := hasTokenB_of_mem_findMatchesGo _ _ _ hm
  obtain ⟨a, b, hab⟩ := exists_decomp_of_mem_splitWsAux s [] part hpart
  simp only [List.reverse_nil, List.nil_append] at hab
  rw [hab]
  exact hasTokenB_append_right b (hasTokenB_append_left a h1)

theorem shape_of_mem_parse {s : List Char} {t : TimeSlot} (ht : t ∈ parse_codes s) :
    isDayChar t.day = true ∧ isPeriodChar t.per = true ∧ t.hour.isDigit = true := by
  rw [parse_codes, List.mem_toFinset, List.mem_flatMap] at ht
  obtain ⟨part, -, ht⟩ := ht
  rw [List.mem_flatMap] at ht
  obtain ⟨m, hm, ht⟩ := ht
  obtain ⟨hd, hp, hdig⟩ := shape_of_mem_findMatchesGo _ _ _ hm
  rw [List.mem_map] at ht
  obtain ⟨x, hx, rfl⟩ := ht
  exact ⟨hd, hp, hdig x hx⟩

/-- C6 counterexample: the claim restricts token hours to 1-6, but the hour
class of the regex in `parse_codes` is `\d`: on input "2M9" the slot 2M9 is
returned although '9' is not in 1-6 (so "2M9" contains no token in the claim's
sense, yet the parse is nonempty). -/
theorem parseCodes_hour_counterexample :
    (⟨'2', 'M', '9'⟩ : TimeSlot) ∈ parse_codes ['2', 'M', '9'] ∧
      isHourChar '9' = false := by decide

/-- C6 (amended): every TimeSlot returned by `parse_codes` comes from a token
with day in 2-7, period in {M,T,N} and hour an arbitrary decimal digit (0-9,
not only 1-6); text not forming such a token contributes no slots, and a
string containing no such token parses to the empty set. -/
theorem parseCodes_shape_amended (s : List Char) :
    (∀ t ∈ parse_codes s,
      isDayChar t.day = true ∧ isPeriodChar t.per = true ∧ t.hour.isDigit = true)
    ∧ (hasTokenB s = false → parse_codes s = ∅) := by
  refine ⟨fun t ht => shape_of_mem_parse ht, fun hno => ?_⟩
  by_contra hne
  obtain ⟨t, ht⟩ := Finset.nonempty_iff_ne_empty.mpr hne
  rw [hasTokenB_of_mem_parse ht] at hno
  exact absurd hno (by decide)

theorem parseCodes_shape_amended_witness :
    (isDayChar (⟨'2', 'M', '9'⟩ : TimeSlot).day = true ∧
      isPeriodChar (⟨'2', 'M', '9'⟩ : TimeSlot).per = true ∧
      Char.isDigit (⟨'2', 'M', '9'⟩ : TimeSlot).hour = true)
    ∧ parse_codes ['a', 'b', 'c'] = ∅ :=
  ⟨(parseCodes_shape_amended ['2', 'M', '9']).1 ⟨'2', 'M', '9'⟩ (by decide),
    (parseCodes_shape_amended ['a', 'b', 'c']).2 (by decide)⟩

/-! ### Fuzzy search lemmas and claim theorem C4 -/

theorem fuzzyLe_total (a b : Nat × ℚ × Disciplina) : (fuzzyLe a b || fuzzyLe b a) = true := by
  simp only [fuzzyLe, Bool.or_eq_true, decide_eq_true_eq]
  rcases lt_trichotomy a.2.1 b.2.1 with h | h | h
  · exact Or.inr (Or.inl h)
  · rcases Nat.le_total a.1 b.1 with hi | hi
    · exact Or.inl (Or.inr ⟨h, hi⟩)
    · exact Or.inr (Or.inr ⟨h.symm, hi⟩)
  · exact Or.inl (Or.inl h)

theorem fuzzyLe_trans (a b c : Nat × ℚ × Disciplina) (h1 : fuzzyLe a b = true)
    (h2 : fuzzyLe b c = true) : fuzzyLe a c = true := by
  simp only [fuzzyLe, decide_eq_true_eq] at h1 h2 ⊢
  rcases h1 with h1 | ⟨h1e, h1i⟩
  · rcases h2 with h2 | ⟨h2e, h2i⟩
    · exact Or.inl (h2.trans h1)
    · exact Or.inl (by rw [← h2e]; exact h1)
  · rcases h2 with h2 | ⟨h2e, h2i⟩
    · exact Or.inl (by rw [h1e]; exact h2)
    · exact Or.inr ⟨h1e.trans h2e, h1i.trans h2i⟩

theorem fuzzyRanked_sorted (ds : List Disciplina) (q : List Char) :
    (fuzzyRanked ds q).Pairwise (fun a b => fuzzyLe a b = true) :=
  List.sorted_mergeSort fuzzyLe_trans fuzzyLe_total _

theorem fuzzyRanked_mem (ds : List Disciplina) (q : List Char)
    {p : Nat × ℚ × Disciplina} (hp : p ∈ fuzzyRanked ds q) :
    (scoredCourses ds q)[p.1]? = some p.2 := by
  obtain ⟨i, x⟩ := p
  have hp2 : (i, x) ∈ (scoredCourses ds q).enum :=
    ((List.mergeSort_perm _ _).mem_iff).mp hp
  obtain ⟨hlt, hx⟩ := List.mem_enum hp2
  rw [List.getElem?_eq_getElem hlt, ← hx]

theorem fuzzyRanked_score (ds : List Disciplina) (q : List Char)
    {p : Nat × ℚ × Disciplina} (hp : p ∈ fuzzyRanked ds q) :
    p.2.1 = normalizedScore q p.2.2.name := by
  have h := fuzzyRanked_mem ds q hp
  rw [scoredCourses, List.getElem?_map] at h
  cases hd : ds[p.1]? with
  | none => rw [hd] at h; exact absurd h (by simp)
  | some d0 =>
    rw [hd, Option.map_some', Option.some.injEq] at h
    rw [← h]

theorem mem_ranked_of_mem_filter_take {ds : List Disciplina} {q : List Char}
    {p : Nat × ℚ × Disciplina}
    (hp : p ∈ ((fuzzyRanked ds q).take 10).filter (fun p => decide ((3 : ℚ)/10 < p.2.1))) :
    p ∈ fuzzyRanked ds q :=
  List.mem_of_mem_take (List.mem_filter.mp hp).1

/-- C4: `fuzzy_search` returns at most 10 courses, every returned course has
normalized score strictly above 0.3, the results are in descending score
order, and the sort is stable: in the ranked list (pairs annotated with their
original position), any two entries with equal scores appear in increasing
original-position order, and each entry is exactly the scored pair at its
recorded original position. -/
theorem fuzzySearch_spec (ds : List Disciplina) (q : List Char) :
    (fuzzy_search ds q).length ≤ 10
    ∧ (∀ d ∈ fuzzy_search ds q, (3 : ℚ)/10 < normalizedScore q d.name)
    ∧ ((fuzzy_search ds q).map (fun d => normalizedScore q d.name)).Sorted (fun a b => b ≤ a)
    ∧ (fuzzyRanked ds q).Pairwise (fun a b => a.2.1 = b.2.1 → a.1 < b.1)
    ∧ (∀ p ∈ fuzzyRanked ds q, (scoredCourses ds q)[p.1]? = some p.2) := by
  have hdesc : (fuzzyRanked ds q).Pairwise (fun a b => b.2.1 ≤ a.2.1) := by
    refine (fuzzyRanked_sorted ds q).imp ?_
    intro a b hab
    simp only [fuzzyLe, decide_eq_true_eq] at hab
    rcases hab with h | ⟨h, -⟩
    · exact le_of_lt h
    · exact le_of_eq h.symm
  refine ⟨?_, ?_, ?_, ?_, fun p hp => fuzzyRanked_mem ds q hp⟩
  · rw [fuzzy_search, List.length_map]
    calc (((fuzzyRanked ds q).take 10).filter (fun p => decide ((3 : ℚ)/10 < p.2.1))).length
        ≤ ((fuzzyRanked ds q).take 10).length := List.length_filter_le _ _
      _ ≤ 10 := by rw [List.length_take]; exact min_le_left _ _
  · intro d hd
    rw [fuzzy_search, List.mem_map] at hd
    obtain ⟨p, hp, rfl⟩ := hd
    have hsc : (3 : ℚ)/10 < p.2.1 := by
      have := (List.mem_filter.mp hp).2
      simpa using this
    have := fuzzyRanked_score ds q (mem_ranked_of_mem_filter_take hp)
    rw [← this]
    exact hsc
  · rw [fuzzy_search, List.map_map]
    rw [List.Sorted]
    apply List.pairwise_map.mpr
    have h1 : (((fuzzyRanked ds q).take 10).filter
        (fun p => decide ((3 : ℚ)/10 < p.2.1))).Pairwise (fun a b => b.2.1 ≤ a.2.1) :=
      (List.Pairwise.sublist (List.take_sublist 10 _) hdesc).filter _
    refine h1.imp_of_mem ?_
    intro a b ha hb hab
    have ha2 := fuzzyRanked_score ds q (mem_ranked_of_mem_filter_take ha)
    have hb2 := fuzzyRanked_score ds q (mem_ranked_of_mem_filter_take hb)
    show normalizedScore q b.2.2.name ≤ normalizedScore q a.2.2.name
    rw [← ha2, ← hb2]
    exact hab
  · have hnodup : ((fuzzyRanked ds q).map Prod.fst).Nodup := by
      have h1 : (((scoredCourses ds q).enum).map Prod.fst).Nodup := by
        rw [List.enum_map_fst]; exact List.nodup_range _
      exact (((List.mergeSort_perm _ _).map Prod.fst).nodup_iff).mpr h1
    have hne : (fuzzyRanked ds q).Pairwise (fun a b => a.1 ≠ b.1) :=
      List.pairwise_map.mp hnodup
    refine ((fuzzyRanked_sorted ds q).and hne).imp ?_
    rintro a b ⟨hle, hab⟩ heq
    simp only [fuzzyLe, decide_eq_true_eq] at hle
    rcases hle with h | ⟨-, h⟩
    · exact absurd (heq ▸ h) (lt_irrefl _)
    · exact lt_of_le_of_ne h hab

theorem pairScore_single : pairScore ['A'] ['A'] = 1 := by
  have hcond : (['A'] : List Char) <:+: ['A'] ∨ (['A'] : List Char) <:+: ['A'] :=
    Or.inl ⟨[], [], by simp⟩
  rw [pairScore, if_pos hcond, if_pos (le_refl _)]
  norm_num

theorem upperWords_single : upperWords ['A'] = [['A']] := by decide

theorem normalizedScore_single : normalizedScore ['A'] ['A'] = 1 := by
  simp only [normalizedScore, upperWords_single]
  norm_num [matchScore, pairScore_single]

theorem fuzzy_concrete_ranked : fuzzyRanked [sampleA] ['A'] = [(0, (1, sampleA))] := by
  have h2 : scoredCourses [sampleA] ['A'] = [(1, sampleA)] := by
    rw [scoredCourses]
    simp [sampleA, normalizedScore_single]
  rw [fuzzyRanked, h2]
  have hperm := List.mergeSort_perm ([((1 : ℚ), sampleA)].enum) fuzzyLe
  have henum : ([((1 : ℚ), sampleA)].enum) = [(0, ((1 : ℚ), sampleA))] := rfl
  rw [henum] at hperm ⊢
  exact List.perm_singleton.mp hperm

theorem fuzzy_concrete_search : fuzzy_search [sampleA] ['A'] = [sampleA] := by
  have hd : decide ((3 : ℚ)/10 < ((0, ((1 : ℚ), sampleA)) : Nat × ℚ × Disciplina).2.1) = true := by
    rw [decide_eq_true_eq]
    norm_num
  rw [fuzzy_search, fuzzy_concrete_ranked]
  simp [List.filter, hd]

theorem fuzzySearch_spec_witness :
    (fuzzy_search [sampleA] ['A']).length ≤ 10
    ∧ (3 : ℚ)/10 < normalizedScore ['A'] sampleA.name
    ∧ ((fuzzy_search [sampleA] ['A']).map
        (fun d => normalizedScore ['A'] d.name)).Sorted (fun a b => b ≤ a)
    ∧ (fuzzyRanked [sampleA] ['A']).Pairwise (fun a b => a.2.1 = b.2.1 → a.1 < b.1)
    ∧ (scoredCourses [sampleA] ['A'])[(0 : Nat)]? = some (1, sampleA) := by
  obtain ⟨h1, h2, h3, h4, h5⟩ := fuzzySearch_spec [sampleA] ['A']
  refine ⟨h1, h2 sampleA ?_, h3, h4, ?_⟩
  · rw [fuzzy_concrete_search]
    exact List.mem_cons_self _ _
  · exact h5 (0, (1, sampleA)) (by rw [fuzzy_concrete_ranked]; exact List.mem_cons_self _ _)
